import Mathlib

/-!
Verification of the `go-web3` utility library (`web3.go`).

Bytes are modelled as natural numbers (meaningful values are `< 256`), byte
slices as `List Nat`, and Go strings (all ASCII here) as `List Char`.
Go functions that can only fail by a runtime panic are modelled with
`Option` (`none` = panic); `PadHexStringTo32Bytes`, which can either return
a hex-decoding error or panic on a negative slice index, is modelled with
`Except` over a two-constructor error type.
-/

set_option maxRecDepth 8000

namespace Web3

/-! ## Keccak-256 (external library `golang.org/x/crypto/sha3`, legacy Keccak)

`ToChecksumAddress` calls `sha3.NewLegacyKeccak256()`. The permutation and
sponge below embed that library's algorithm: Keccak-f[1600], rate 136 bytes,
multi-rate padding with domain-separation byte `0x01` (pre-NIST Keccak). -/

/-- 64-bit left rotation on lanes represented as `Nat` values below `2 ^ 64`. -/
def rotl64 (x n : Nat) : Nat :=
  ((x <<< n) ||| (x >>> (64 - n))) % (2 ^ 64)

/-- Round constants of Keccak-f[1600] (the usual hex table, written in
decimal: `1 = 0x1`, `32898 = 0x8082`, `9223372036854808714 = 0x800000000000808a`,
and so on). -/
def keccakRC : List Nat :=
  [1, 32898, 9223372036854808714,
   9223372039002292224, 32907, 2147483649,
   9223372039002292353, 9223372036854808585, 138,
   136, 2147516425, 2147483658,
   2147516555, 9223372036854775947, 9223372036854808713,
   9223372036854808579, 9223372036854808578, 9223372036854775936,
   32778, 9223372039002259466, 9223372039002292353,
   9223372036854808704, 2147483649, 9223372039002292232]

/-- Rotation offsets `r[x][y]` of the ρ step, one row per `y`, flattened at
index `x + 5 * y`. -/
def keccakRot : List Nat :=
  [0, 1, 62, 28, 27] ++
    [36, 44, 6, 55, 20] ++
    [3, 10, 43, 25, 39] ++
    [41, 45, 15, 21, 8] ++
    [18, 2, 61, 56, 14]

/-- Lane `(x, y)` of a 25-lane state. -/
def lane (s : List Nat) (x y : Nat) : Nat :=
  s.getD (x + 5 * y) 0

/-- θ step of Keccak-f. -/
def theta (s : List Nat) : List Nat :=
  (List.range 25).map (fun i =>
    let x := i % 5
    let c := fun j => lane s j 0 ^^^ lane s j 1 ^^^ lane s j 2 ^^^ lane s j 3 ^^^ lane s j 4
    s.getD i 0 ^^^ c ((x + 4) % 5) ^^^ rotl64 (c ((x + 1) % 5)) 1)

/-- Combined ρ and π steps: lane `(x, y)` rotated by `r[x][y]` moves to `(y, 2x + 3y)`. -/
def rhoPi (s : List Nat) : List Nat :=
  (List.range 25).foldl
    (fun b i =>
      let x := i % 5
      let y := i / 5
      b.set (y + 5 * ((2 * x + 3 * y) % 5)) (rotl64 (lane s x y) (keccakRot.getD i 0)))
    (List.replicate 25 0)

/-- χ step of Keccak-f. -/
def chi (b : List Nat) : List Nat :=
  (List.range 25).map (fun i =>
    let x := i % 5
    let y := i / 5
    lane b x y ^^^ ((((2 ^ 64) - 1) ^^^ lane b ((x + 1) % 5) y) &&& lane b ((x + 2) % 5) y))

/-- ι step: xor the round constant into lane `(0, 0)`. -/
def iotaStep (r : Nat) (s : List Nat) : List Nat :=
  s.set 0 (s.getD 0 0 ^^^ keccakRC.getD r 0)

/-- One round of Keccak-f[1600]. -/
def keccakRound (r : Nat) (s : List Nat) : List Nat :=
  iotaStep r (chi (rhoPi (theta s)))

/-- The full 24-round Keccak-f[1600] permutation. -/
def keccakF (s : List Nat) : List Nat :=
  (List.range 24).foldl (fun st r => keccakRound r st) s

/-- Interpret up to eight bytes as a little-endian 64-bit lane. -/
def bytesToLane (bs : List Nat) : Nat :=
  bs.foldr (fun b acc => b + 256 * acc) 0

/-- Absorb one 136-byte block into the sponge state and permute. -/
def absorbBlock (s block : List Nat) : List Nat :=
  keccakF ((List.range 25).map (fun i =>
    if i < 17 then s.getD i 0 ^^^ bytesToLane ((block.drop (8 * i)).take 8)
    else s.getD i 0))

/-- Absorb `n` consecutive 136-byte blocks of `msg` (structural on the count). -/
def absorbBlocks : Nat → List Nat → List Nat → List Nat
  | 0, s, _ => s
  | n + 1, s, msg => absorbBlocks n (absorbBlock s (msg.take 136)) (msg.drop 136)

/-- Keccak-256 of a byte sequence: pad with `0x01 … 0x80`, absorb, squeeze 32 bytes. -/
def keccak256 (input : List Nat) : List Nat :=
  let q := 136 - input.length % 136
  let padded := input ++ (if q = 1 then [0x81] else 0x01 :: (List.replicate (q - 2) 0 ++ [0x80]))
  let s := absorbBlocks (padded.length / 136) (List.replicate 25 0) padded
  (List.range 32).map (fun i => (s.getD (i / 8) 0 >>> (8 * (i % 8))) % 256)

/-! ## Hexadecimal codec (standard library `encoding/hex`) -/

/-- `hex.EncodeToString`: each byte becomes two lowercase hex characters.
`Nat.digitChar` agrees with Go's `hextable` (`"0123456789abcdef"`) on `0 ≤ n < 16`. -/
def hexEncode : List Nat → List Char
  | [] => []
  | b :: bs => Nat.digitChar (b / 16) :: Nat.digitChar (b % 16) :: hexEncode bs

/-- Go's `fromHexChar`: value of one hex digit, accepting both letter cases. -/
def fromHexChar (c : Char) : Option Nat :=
  if '0' ≤ c ∧ c ≤ '9' then some (c.toNat - '0'.toNat)
  else if 'a' ≤ c ∧ c ≤ 'f' then some (c.toNat - 'a'.toNat + 10)
  else if 'A' ≤ c ∧ c ≤ 'F' then some (c.toNat - 'A'.toNat + 10)
  else none

/-- `hex.DecodeString`: pairs of hex digits to bytes; `none` on an invalid
character or odd length (Go reports both as a non-nil error). -/
def hexDecode : List Char → Option (List Nat)
  | [] => some []
  | [_] => none
  | c1 :: c2 :: rest =>
    match fromHexChar c1, fromHexChar c2, hexDecode rest with
    | some h, some l, some tl => some ((16 * h + l) :: tl)
    | _, _, _ => none

/-! ## The EIP-55 checksum codec (`ToChecksumAddress`, `IsChecksumAddress`) -/

/-- `strings.ToUpper` restricted to one ASCII character, as applied by
`strings.ToUpper(string(c))[0]` in the encoder loop. -/
def toUpperChar (c : Char) : Char :=
  if 'a' ≤ c ∧ c ≤ 'z' then Char.ofNat (c.toNat - 32) else c

/-- Body of the encoder loop: the address character, uppercased exactly when
the hash character at the same index is at least `'8'`. -/
def ruleChar (c h : Char) : Char :=
  if '8' ≤ h then toUpperChar c else c

/-- The loop `for i, c := range address { … hashHex[i] … }`: walks the address
characters together with the hash characters; `none` models the index-out-of-range
panic Go raises when the address string is longer than `hashHex`. -/
def checksumMap : List Char → List Char → Option (List Char)
  | [], _ => some []
  | _ :: _, [] => none
  | c :: cs, h :: hs =>
    match checksumMap cs hs with
    | some rest => some (ruleChar c h :: rest)
    | none => none

/-- `ToChecksumAddress`: hex-encode the input, hash the resulting ASCII text with
Keccak-256, and uppercase the hex characters selected by the hash. The Go
function's `error` result is always `nil`; `none` here models the panic from
indexing `hashHex` past its 64 characters. -/
def ToChecksumAddress (a : List Nat) : Option (List Char) :=
  match checksumMap (hexEncode a) (hexEncode (keccak256 ((hexEncode a).map Char.toNat))) with
  | some body => some ('0' :: 'x' :: body)
  | none => none

/-- `IsChecksumAddress`: shape checks, decode the tail, re-encode, compare
case-sensitively. `some false` covers every rejection path (including a hex
decode error, which Go swallows into `false`); `none` would mean a panic
propagated out of `ToChecksumAddress`. -/
def IsChecksumAddress (address : List Char) : Option Bool :=
  if ['0', 'x'] <+: address ∧ address.length = 42 then
    match hexDecode (address.drop 2) with
    | none => some false
    | some addressHex =>
      match ToChecksumAddress addressHex with
      | some expected => some (decide (address = expected))
      | none => none
  else some false

/-! ## Padding and concatenation helpers -/

/-- Failure modes of `PadHexStringTo32Bytes`: a hex decode error returned as a
Go `error` value, or the runtime panic from slicing `paddedData[32-len(data):]`
with a negative index. -/
inductive PadErr
  | decodeError
  | sliceBoundsPanic
deriving DecidableEq

/-- The tail of the input after stripping an optional `"0x"`. -/
def hexTail (hexString : List Char) : List Char :=
  if ['0', 'x'] <+: hexString then hexString.drop 2 else hexString

/-- `PadHexStringTo32Bytes`: strip `"0x"`, hex-decode, and left-pad the decoded
bytes into a fresh 32-byte buffer. When the decoded data is longer than 32
bytes, the Go code computes the negative slice bound `32 - len(data)` and
panics; that is the `sliceBoundsPanic` branch. -/
def PadHexStringTo32Bytes (hexString : List Char) : Except PadErr (List Nat) :=
  match hexDecode (hexTail hexString) with
  | none => Except.error PadErr.decodeError
  | some data =>
    if data.length ≤ 32 then Except.ok (List.replicate (32 - data.length) 0 ++ data)
    else Except.error PadErr.sliceBoundsPanic

/-- `PadTo32Bytes`: inputs of length at least 32 pass through unchanged, shorter
inputs are right-justified in a zeroed 32-byte buffer. -/
def PadTo32Bytes (sender : List Nat) : List Nat :=
  if 32 ≤ sender.length then sender
  else List.replicate (32 - sender.length) 0 ++ sender

/-- `ConcatBytes`: append every argument, in order, to an initially empty
result slice. -/
def ConcatBytes (bytes : List (List Nat)) : List Nat :=
  bytes.foldl (fun result b => result ++ b) []

/-! ## Spec-side transformation rule (for the refinement claim about the
encoder's per-character behaviour) -/

/-- Transformation rule exactly as the spec words it: uppercase a character
precisely when it is a letter `a`–`f` and the hash character at the same index
is at least `'8'`; every other character — in particular every numeric digit —
is left unchanged. -/
def specChecksumTransform (addrHex hashHex : List Char) : List Char :=
  List.zipWith
    (fun c h => if ('a' ≤ c ∧ c ≤ 'f') ∧ '8' ≤ h then toUpperChar c else c)
    addrHex hashHex

/-! ## Basic length and shape lemmas -/

/-- Keccak-256 always squeezes exactly 32 bytes. -/
theorem keccak256_length (input : List Nat) : (keccak256 input).length = 32 := by
  simp [keccak256]

/-- Hex encoding doubles the length. -/
theorem hexEncode_length (bs : List Nat) : (hexEncode bs).length = 2 * bs.length := by
  induction bs with
  | nil => rfl
  | cons b bs ih => simp [hexEncode, ih]; omega

/-- The hash hex string consulted by the encoder, as a named abbreviation. -/
def hashHexOf (a : List Nat) : List Char :=
  hexEncode (keccak256 ((hexEncode a).map Char.toNat))

/-- The hash hex string always has 64 characters. -/
theorem hashHexOf_length (a : List Nat) : (hashHexOf a).length = 64 := by
  simp [hashHexOf, hexEncode_length, keccak256_length]

/-- When the hash string is long enough, the encoder loop succeeds and equals
the pointwise `ruleChar` zip. -/
theorem checksumMap_eq_zipWith :
    ∀ (cs hs : List Char), cs.length ≤ hs.length →
      checksumMap cs hs = some (List.zipWith ruleChar cs hs)
  | [], _, _ => by simp [checksumMap]
  | c :: cs, [], h => by simp at h
  | c :: cs, h' :: hs, h => by
    have := checksumMap_eq_zipWith cs hs (by simpa using h)
    simp [checksumMap, this]

/-- When the address string is strictly longer than the hash string, the loop
hits an out-of-range index: the modelled panic. -/
theorem checksumMap_none_of_lt :
    ∀ (cs hs : List Char), hs.length < cs.length → checksumMap cs hs = none
  | [], _, h => by simp at h
  | c :: cs, [], _ => rfl
  | c :: cs, h' :: hs, h => by
    have := checksumMap_none_of_lt cs hs (by simpa using h)
    simp [checksumMap, this]

/-- For inputs of at most 32 bytes, `ToChecksumAddress` succeeds and its body
is the `ruleChar` zip of the address hex with the hash hex. -/
theorem ToChecksumAddress_eq_some (a : List Nat) (h : a.length ≤ 32) :
    ToChecksumAddress a =
      some ('0' :: 'x' :: List.zipWith ruleChar (hexEncode a) (hashHexOf a)) := by
  have hlen : (hexEncode a).length ≤ (hashHexOf a).length := by
    rw [hexEncode_length, hashHexOf_length]; omega
  rw [ToChecksumAddress, show hexEncode (keccak256 ((hexEncode a).map Char.toNat)) = hashHexOf a from rfl,
    checksumMap_eq_zipWith _ _ hlen]

/-! ## Hex decoding facts -/

/-- Decoding a single lowercase hex digit produced by `Nat.digitChar`. -/
theorem fromHexChar_digitChar (n : Nat) (hn : n < 16) :
    fromHexChar (Nat.digitChar n) = some n := by
  interval_cases n <;> decide

/-- Decoding the uppercase form of a hex digit gives the same value. -/
theorem fromHexChar_upper_digitChar (n : Nat) (hn : n < 16) :
    fromHexChar (toUpperChar (Nat.digitChar n)) = some n := by
  interval_cases n <;> decide

/-- The encoder's per-character transformation never changes the hex value. -/
theorem fromHexChar_ruleChar (n : Nat) (hn : n < 16) (h : Char) :
    fromHexChar (ruleChar (Nat.digitChar n) h) = some n := by
  rw [ruleChar]
  split
  · exact fromHexChar_upper_digitChar n hn
  · exact fromHexChar_digitChar n hn

/-- Hex-decoding the checksummed body recovers the original bytes: the
case-insensitive decoder undoes any mixture of `ruleChar` case choices. -/
theorem hexDecode_zipWith_ruleChar :
    ∀ (bs : List Nat) (hs : List Char), (∀ b ∈ bs, b < 256) →
      2 * bs.length ≤ hs.length →
      hexDecode (List.zipWith ruleChar (hexEncode bs) hs) = some bs
  | [], hs, _, _ => by simp [hexEncode, hexDecode]
  | b :: bs, hs, hb, hlen => by
    match hs, hlen with
    | h1 :: h2 :: hs, hlen =>
      have hb1 : b < 256 := hb b (by simp)
      have ih := hexDecode_zipWith_ruleChar bs hs (fun x hx => hb x (by simp [hx]))
        (by simp at hlen ⊢; omega)
      have hhi : b / 16 < 16 := by omega
      have hlo : b % 16 < 16 := by omega
      simp only [hexEncode, List.zipWith, hexDecode, ih,
        fromHexChar_ruleChar _ hhi, fromHexChar_ruleChar _ hlo]
      congr 2
      omega

/-- A successful decode consumes exactly two characters per byte. -/
theorem hexDecode_length :
    ∀ (cs : List Char) (d : List Nat), hexDecode cs = some d → cs.length = 2 * d.length
  | [], d, h => by simp [hexDecode] at h; simp [← h]
  | [_], d, h => by simp [hexDecode] at h
  | c1 :: c2 :: rest, d, h => by
    rw [hexDecode] at h
    match h1 : fromHexChar c1, h2 : fromHexChar c2, h3 : hexDecode rest with
    | some a, some b, some tl =>
      rw [h1, h2, h3] at h
      have := hexDecode_length rest tl h3
      simp at h
      simp [← h, this]
      omega
    | none, _, _ => rw [h1] at h; simp at h
    | some _, none, _ => rw [h1, h2] at h; simp at h
    | some _, some _, none => rw [h1, h2, h3] at h; simp at h

/-! ## Validation-side helpers -/

/-- On a well-shaped input whose tail decodes, validation reduces to a
case-sensitive comparison against the re-encoded address. -/
theorem IsChecksumAddress_eq_decide (s : List Char) (a : List Nat) (t : List Char)
    (hpre : ['0', 'x'] <+: s) (hlen : s.length = 42)
    (hdec : hexDecode (s.drop 2) = some a) (henc : ToChecksumAddress a = some t) :
    IsChecksumAddress s = some (decide (s = t)) := by
  rw [IsChecksumAddress, if_pos ⟨hpre, hlen⟩, hdec]
  show (match ToChecksumAddress a with
    | some expected => some (decide (s = expected))
    | none => none) = some (decide (s = t))
  rw [henc]

/-- The checksummed body of a 20-byte address has 40 characters. -/
theorem zip_body_length (a : List Nat) (h20 : a.length = 20) :
    (List.zipWith ruleChar (hexEncode a) (hashHexOf a)).length = 40 := by
  simp [List.length_zipWith, hexEncode_length, hashHexOf_length, h20]

/-- Encoding a 20-byte address and validating the result yields `true`. -/
theorem validate_encode (a : List Nat) (h20 : a.length = 20) (hb : ∀ b ∈ a, b < 256) :
    IsChecksumAddress ('0' :: 'x' :: List.zipWith ruleChar (hexEncode a) (hashHexOf a)) =
      some true := by
  have hdec : hexDecode (List.zipWith ruleChar (hexEncode a) (hashHexOf a)) = some a :=
    hexDecode_zipWith_ruleChar a (hashHexOf a) hb (by rw [hashHexOf_length]; omega)
  have henc := ToChecksumAddress_eq_some a (by omega)
  have hmain := IsChecksumAddress_eq_decide
    ('0' :: 'x' :: List.zipWith ruleChar (hexEncode a) (hashHexOf a)) a
    ('0' :: 'x' :: List.zipWith ruleChar (hexEncode a) (hashHexOf a))
    ⟨List.zipWith ruleChar (hexEncode a) (hashHexOf a), rfl⟩
    (by simp [zip_body_length a h20]) hdec henc
  rw [hmain]
  simp

/-! ## Claim theorems -/

/-- Claim C1: for every 20-byte address `a`, validating the encoded form
round-trips — `IsChecksumAddress (ToChecksumAddress a)` returns `true`. -/
theorem checksum_roundtrip (a : List Nat) (h20 : a.length = 20) (hb : ∀ b ∈ a, b < 256) :
    ∃ s, ToChecksumAddress a = some s ∧ IsChecksumAddress s = some true :=
  ⟨_, ToChecksumAddress_eq_some a (by omega), validate_encode a h20 hb⟩

theorem checksum_roundtrip_witness :
    (List.replicate 20 0 : List Nat).length = 20 ∧
      (∀ b ∈ (List.replicate 20 0 : List Nat), b < 256) ∧
      ∃ s, ToChecksumAddress (List.replicate 20 0) = some s ∧ IsChecksumAddress s = some true :=
  ⟨by decide, by decide, checksum_roundtrip (List.replicate 20 0) (by decide) (by decide)⟩

/-- Claim C2, counterexample: a 33-byte input makes the encoder's loop index
`hashHex` (64 characters) at position 64 — the modelled out-of-range panic —
so `ToChecksumAddress` is not total over byte slices of every length. -/
theorem toChecksum_33_bytes_panics : ToChecksumAddress (List.replicate 33 0) = none := by
  rw [ToChecksumAddress]
  have h : checksumMap (hexEncode (List.replicate 33 0))
      (hexEncode (keccak256 ((hexEncode (List.replicate 33 0)).map Char.toNat))) = none := by
    apply checksumMap_none_of_lt
    rw [hexEncode_length, hexEncode_length, keccak256_length]
    simp
  rw [h]

/-- Claim C2 (amended): `ToChecksumAddress` succeeds for every input of at most
32 bytes (the hash hex string has 64 characters, covering up to 64 address
characters); in particular the empty input yields exactly `"0x"`. Inputs longer
than 32 bytes hit an index-out-of-range panic instead. -/
theorem toChecksum_total_upto32 :
    (∀ a : List Nat, a.length ≤ 32 → ∃ s, ToChecksumAddress a = some s) ∧
      ToChecksumAddress [] = some ['0', 'x'] :=
  ⟨fun a h => ⟨_, ToChecksumAddress_eq_some a h⟩, rfl⟩

theorem toChecksum_total_upto32_witness :
    ([1, 2, 3] : List Nat).length ≤ 32 ∧ ∃ s, ToChecksumAddress [1, 2, 3] = some s :=
  ⟨by decide, toChecksum_total_upto32.1 [1, 2, 3] (by decide)⟩

/-- Claim C4: `IsChecksumAddress` returns `false` (never an error) when the
string lacks the `"0x"` prefix, is not 42 characters, or has a non-hex tail;
otherwise it returns the case-sensitive comparison of the input against the
re-encoding of the decoded tail bytes. -/
theorem isChecksum_shape (s : List Char) :
    ((¬ (['0', 'x'] <+: s) ∨ s.length ≠ 42 ∨ hexDecode (s.drop 2) = none) →
      IsChecksumAddress s = some false)
    ∧ (∀ a, ['0', 'x'] <+: s → s.length = 42 → hexDecode (s.drop 2) = some a →
        ∃ t, ToChecksumAddress a = some t ∧ IsChecksumAddress s = some (decide (s = t))) := by
  constructor
  · intro h
    rcases Classical.em (['0', 'x'] <+: s ∧ s.length = 42) with hc | hc
    · have hdec : hexDecode (s.drop 2) = none := by tauto
      rw [IsChecksumAddress, if_pos hc, hdec]
    · rw [IsChecksumAddress, if_neg hc]
  · intro a hpre hlen hdec
    have hd20 : a.length = 20 := by
      have h1 := hexDecode_length _ _ hdec
      have h2 : (s.drop 2).length = 40 := by rw [List.length_drop, hlen]
      omega
    have henc := ToChecksumAddress_eq_some a (by omega)
    exact ⟨_, henc, IsChecksumAddress_eq_decide s a _ hpre hlen hdec henc⟩

theorem isChecksum_shape_witness :
    ∃ t, ToChecksumAddress (List.replicate 20 0) = some t ∧
      IsChecksumAddress ('0' :: 'x' :: List.replicate 40 '0') =
        some (decide ('0' :: 'x' :: List.replicate 40 '0' = t)) :=
  (isChecksum_shape ('0' :: 'x' :: List.replicate 40 '0')).2 (List.replicate 20 0)
    ⟨List.replicate 40 '0', rfl⟩ (by decide) (by decide)

/-- Claim C6: `PadTo32Bytes` is idempotent; inputs of length at least 32 pass
through unchanged, and shorter inputs become a 32-byte right-aligned,
zero-padded result. -/
theorem padTo32_spec (x : List Nat) :
    PadTo32Bytes (PadTo32Bytes x) = PadTo32Bytes x
    ∧ (32 ≤ x.length → PadTo32Bytes x = x)
    ∧ (x.length < 32 →
        PadTo32Bytes x = List.replicate (32 - x.length) 0 ++ x
        ∧ (PadTo32Bytes x).length = 32) := by
  by_cases h : 32 ≤ x.length
  · have hx : PadTo32Bytes x = x := by rw [PadTo32Bytes, if_pos h]
    exact ⟨by rw [hx, hx], fun _ => hx, fun hlt => absurd hlt (by omega)⟩
  · have hx : PadTo32Bytes x = List.replicate (32 - x.length) 0 ++ x := by
      rw [PadTo32Bytes, if_neg h]
    have hl : (PadTo32Bytes x).length = 32 := by rw [hx]; simp; omega
    have hid : PadTo32Bytes (PadTo32Bytes x) = PadTo32Bytes x := by
      conv_lhs => rw [PadTo32Bytes]
      rw [if_pos (by omega)]
    exact ⟨hid, fun hge => absurd hge h, fun _ => ⟨hx, hl⟩⟩

theorem padTo32_spec_witness :
    ([1, 2] : List Nat).length < 32
    ∧ (PadTo32Bytes [1, 2] = List.replicate 30 0 ++ [1, 2]
        ∧ (PadTo32Bytes [1, 2]).length = 32) :=
  ⟨by decide, (padTo32_spec [1, 2]).2.2 (by decide)⟩

/-- Claim C7: `PadHexStringTo32Bytes` strips an optional `"0x"`, fails with a
decode error exactly when the remaining characters are not valid hex, and for
decoded lengths up to 32 returns the decoded bytes right-aligned in a zeroed
32-byte buffer; in particular `"0x1234"` gives 30 zero bytes then `0x12, 0x34`. -/
theorem padHex_spec (s : List Char) :
    (PadHexStringTo32Bytes s = Except.error PadErr.decodeError ↔
      hexDecode (hexTail s) = none)
    ∧ (∀ d, hexDecode (hexTail s) = some d → d.length ≤ 32 →
        PadHexStringTo32Bytes s = Except.ok (List.replicate (32 - d.length) 0 ++ d))
    ∧ PadHexStringTo32Bytes ['0', 'x', '1', '2', '3', '4'] =
        Except.ok (List.replicate 30 0 ++ [0x12, 0x34]) := by
  refine ⟨⟨?_, ?_⟩, ?_, rfl⟩
  · intro h
    rcases hdec : hexDecode (hexTail s) with _ | d
    · rfl
    · rw [PadHexStringTo32Bytes, hdec] at h
      simp only [] at h
      split at h <;> simp at h
  · intro h
    rw [PadHexStringTo32Bytes, h]
  · intro d hd hlen
    rw [PadHexStringTo32Bytes, hd]
    simp [hlen]

theorem padHex_spec_witness :
    hexDecode (hexTail ['1', '2']) = some [0x12] ∧ ([0x12] : List Nat).length ≤ 32
    ∧ PadHexStringTo32Bytes ['1', '2'] = Except.ok (List.replicate 31 0 ++ [0x12]) :=
  ⟨by decide, by decide, (padHex_spec ['1', '2']).2.1 [0x12] (by decide) (by decide)⟩

/-- Claim C8, counterexample: 66 hex characters decode to 33 bytes, and instead
of succeeding with the rightmost 32 bytes, the function computes the negative
slice bound `32 - 33` and panics (modelled as `sliceBoundsPanic`). -/
theorem padHex_long_input_panics :
    hexDecode (hexTail (List.replicate 66 '0')) = some (List.replicate 33 0)
    ∧ PadHexStringTo32Bytes (List.replicate 66 '0') =
        Except.error PadErr.sliceBoundsPanic :=
  ⟨by decide, rfl⟩

/-- Claim C8 (amended): for every valid hex input whose decoded byte length
exceeds 32, `PadHexStringTo32Bytes` does not succeed — it raises the
negative-slice-bound panic. -/
theorem padHex_long_amended (s : List Char) (d : List Nat)
    (hd : hexDecode (hexTail s) = some d) (hlen : 32 < d.length) :
    PadHexStringTo32Bytes s = Except.error PadErr.sliceBoundsPanic := by
  rw [PadHexStringTo32Bytes, hd]
  simp [Nat.not_le.mpr hlen]

theorem padHex_long_amended_witness :
    hexDecode (hexTail (List.replicate 68 'f')) = some (List.replicate 34 255)
    ∧ 32 < (List.replicate 34 (255 : Nat)).length
    ∧ PadHexStringTo32Bytes (List.replicate 68 'f') =
        Except.error PadErr.sliceBoundsPanic :=
  ⟨by decide, by decide,
    padHex_long_amended (List.replicate 68 'f') (List.replicate 34 255) (by decide) (by decide)⟩

/-- Claim C9: `ConcatBytes` returns all input bytes in argument order with no
separators — its length is the sum of the argument lengths, two arguments
concatenate byte-for-byte, and zero arguments give the empty sequence. -/
theorem concat_spec (bss : List (List Nat)) (a b : List Nat) :
    (ConcatBytes bss).length = (bss.map List.length).sum
    ∧ ConcatBytes bss = bss.flatten
    ∧ ConcatBytes [a, b] = a ++ b
    ∧ ConcatBytes [] = [] := by
  have hjoin : ∀ (l : List (List Nat)) (acc : List Nat),
      l.foldl (fun r x => r ++ x) acc = acc ++ l.flatten := by
    intro l
    induction l with
    | nil => simp
    | cons x xs ih => intro acc; simp [List.flatten, ih]
  refine ⟨?_, ?_, ?_, rfl⟩
  · rw [ConcatBytes, hjoin]; simp [List.length_flatten]
  · rw [ConcatBytes, hjoin]; simp
  · rw [ConcatBytes, hjoin]; simp [List.flatten]

/-- Claim C10: `IsChecksumAddress` is total — every input string yields a
boolean, because `ToChecksumAddress` is only ever invoked on the 20 bytes
decoded from a 40-character tail, keeping the hash-hex indexing in bounds. -/
theorem isChecksum_total (s : List Char) : ∃ b, IsChecksumAddress s = some b := by
  by_cases hc : ['0', 'x'] <+: s ∧ s.length = 42
  · rcases hdec : hexDecode (s.drop 2) with _ | d
    · exact ⟨false, by rw [IsChecksumAddress, if_pos hc, hdec]⟩
    · have hd20 : d.length = 20 := by
        have h1 := hexDecode_length _ _ hdec
        have h2 : (s.drop 2).length = 40 := by rw [List.length_drop, hc.2]
        omega
      have henc := ToChecksumAddress_eq_some d (by omega)
      exact ⟨_, IsChecksumAddress_eq_decide s d _ hc.1 hc.2 hdec henc⟩
  · exact ⟨false, by rw [IsChecksumAddress, if_neg hc]⟩

/-! ## The encoder rule versus the spec's wording of it -/

/-- Every character `hexEncode` emits is a hex digit character. -/
theorem hexEncode_chars (bs : List Nat) (hb : ∀ b ∈ bs, b < 256) :
    ∀ c ∈ hexEncode bs, ∃ n, n < 16 ∧ c = Nat.digitChar n := by
  induction bs with
  | nil => simp [hexEncode]
  | cons b bs ih =>
    intro c hc
    have hb1 : b < 256 := hb b (by simp)
    rw [hexEncode] at hc
    simp only [List.mem_cons] at hc
    rcases hc with h | h | h
    · exact ⟨b / 16, by omega, h⟩
    · exact ⟨b % 16, by omega, h⟩
    · exact ih (fun x hx => hb x (by simp [hx])) c h

/-- On hex digit characters, the source's rule (uppercase whenever the hash
character is at least `'8'`) agrees with the spec's rule (uppercase only
letters `a`–`f` under that hash condition): uppercasing a digit is a no-op. -/
theorem ruleChar_eq_specRule (n : Nat) (hn : n < 16) (h : Char) :
    ruleChar (Nat.digitChar n) h =
      if ('a' ≤ Nat.digitChar n ∧ Nat.digitChar n ≤ 'f') ∧ '8' ≤ h then
        toUpperChar (Nat.digitChar n)
      else Nat.digitChar n := by
  by_cases hh : '8' ≤ h
  · rw [ruleChar, if_pos hh]
    interval_cases n <;> simp [hh] <;> decide
  · rw [ruleChar, if_neg hh]
    have : ¬ (('a' ≤ Nat.digitChar n ∧ Nat.digitChar n ≤ 'f') ∧ '8' ≤ h) := by tauto
    rw [if_neg this]

/-- Over a list of hex digit characters, the implemented zip equals the
spec-worded transformation. -/
theorem zipWith_ruleChar_eq_specTransform :
    ∀ (cs hs : List Char), (∀ c ∈ cs, ∃ n, n < 16 ∧ c = Nat.digitChar n) →
      List.zipWith ruleChar cs hs = specChecksumTransform cs hs
  | [], hs, _ => by simp [specChecksumTransform]
  | c :: cs, [], _ => by simp [specChecksumTransform]
  | c :: cs, h :: hs, hd => by
    obtain ⟨n, hn, hc⟩ := hd c (by simp)
    have ih := zipWith_ruleChar_eq_specTransform cs hs (fun x hx => hd x (by simp [hx]))
    rw [specChecksumTransform] at ih ⊢
    rw [List.zipWith_cons_cons, List.zipWith_cons_cons, ih, hc,
      ruleChar_eq_specRule n hn h]

/-- When `checksumMap` succeeds, its output is the `ruleChar` zip. -/
theorem checksumMap_some_eq (cs hs out : List Char) (h : checksumMap cs hs = some out) :
    out = List.zipWith ruleChar cs hs := by
  rcases Nat.lt_or_ge hs.length cs.length with hlt | hge
  · rw [checksumMap_none_of_lt cs hs hlt] at h; cases h
  · rw [checksumMap_eq_zipWith cs hs hge] at h
    exact (Option.some_inj.mp h).symm

/-- Claim C3: whenever `ToChecksumAddress` returns a string, that string is
`"0x"` followed by the spec's per-character rule applied to the lowercase hex
encoding and the hash hex: letters `a`–`f` are uppercased exactly when the hash
character at the same index is at least `'8'`, and digits are never altered. -/
theorem toChecksum_shape (a : List Nat) (hb : ∀ b ∈ a, b < 256) (s : List Char)
    (hs : ToChecksumAddress a = some s) :
    s = '0' :: 'x' :: specChecksumTransform (hexEncode a) (hashHexOf a) := by
  rw [ToChecksumAddress] at hs
  rcases hm : checksumMap (hexEncode a)
      (hexEncode (keccak256 ((hexEncode a).map Char.toNat))) with _ | body
  · rw [hm] at hs; cases hs
  · rw [hm] at hs
    simp only [Option.some_inj] at hs
    have hbody := checksumMap_some_eq _ _ _ hm
    have hspec := zipWith_ruleChar_eq_specTransform (hexEncode a)
      (hexEncode (keccak256 ((hexEncode a).map Char.toNat))) (hexEncode_chars a hb)
    rw [← hs, hbody, hspec]
    rfl

theorem toChecksum_shape_witness :
    (∀ b ∈ ([] : List Nat), b < 256) ∧ ToChecksumAddress [] = some ['0', 'x'] ∧
      (['0', 'x'] : List Char) =
        '0' :: 'x' :: specChecksumTransform (hexEncode []) (hashHexOf []) :=
  ⟨by decide, rfl, toChecksum_shape [] (by decide) ['0', 'x'] rfl⟩

/-! ## Case flipping and the uniqueness of the checksummed string -/

/-- An ASCII alphabetic character (either case). -/
def isAlphaChar (c : Char) : Prop :=
  ('a' ≤ c ∧ c ≤ 'z') ∨ ('A' ≤ c ∧ c ≤ 'Z')

instance (c : Char) : Decidable (isAlphaChar c) := by
  unfold isAlphaChar; infer_instance

/-- Toggle the case of an ASCII letter; any other character is unchanged. -/
def flipCase (c : Char) : Char :=
  if 'a' ≤ c ∧ c ≤ 'z' then Char.ofNat (c.toNat - 32)
  else if 'A' ≤ c ∧ c ≤ 'Z' then Char.ofNat (c.toNat + 32)
  else c

/-- Toggling the case of a lowercase hex digit keeps its hex value, and
actually changes the character when it is alphabetic. -/
theorem flip_digitChar (n : Nat) (hn : n < 16) :
    fromHexChar (flipCase (Nat.digitChar n)) = fromHexChar (Nat.digitChar n)
    ∧ (isAlphaChar (Nat.digitChar n) → flipCase (Nat.digitChar n) ≠ Nat.digitChar n) := by
  interval_cases n <;> exact ⟨by decide, by decide⟩

/-- Same facts for the uppercased form of a hex digit. -/
theorem flip_upper_digitChar (n : Nat) (hn : n < 16) :
    fromHexChar (flipCase (toUpperChar (Nat.digitChar n))) =
      fromHexChar (toUpperChar (Nat.digitChar n))
    ∧ (isAlphaChar (toUpperChar (Nat.digitChar n)) →
        flipCase (toUpperChar (Nat.digitChar n)) ≠ toUpperChar (Nat.digitChar n)) := by
  interval_cases n <;> exact ⟨by decide, by decide⟩

/-- Same facts for the character the encoder actually emits. -/
theorem flip_ruleChar (n : Nat) (hn : n < 16) (h : Char) :
    fromHexChar (flipCase (ruleChar (Nat.digitChar n) h)) =
      fromHexChar (ruleChar (Nat.digitChar n) h)
    ∧ (isAlphaChar (ruleChar (Nat.digitChar n) h) →
        flipCase (ruleChar (Nat.digitChar n) h) ≠ ruleChar (Nat.digitChar n) h) := by
  rw [ruleChar]
  split
  · exact flip_upper_digitChar n hn
  · exact flip_digitChar n hn

/-- Per-character decoding of a whole string, the building block `hexDecode`
pairs up. -/
def mapFromHex : List Char → Option (List Nat)
  | [] => some []
  | c :: cs =>
    match fromHexChar c, mapFromHex cs with
    | some n, some ns => some (n :: ns)
    | _, _ => none

/-- Combine consecutive nibbles into bytes; `none` on an odd count. -/
def pairBytes : List Nat → Option (List Nat)
  | [] => some []
  | [_] => none
  | h :: l :: rest =>
    match pairBytes rest with
    | some tl => some ((16 * h + l) :: tl)
    | none => none

/-- `hexDecode` factors through per-character decoding followed by pairing. -/
theorem hexDecode_eq_pair :
    ∀ cs : List Char, hexDecode cs = (mapFromHex cs).bind pairBytes
  | [] => rfl
  | [c] => by
    rcases h : fromHexChar c with _ | n <;>
      simp [hexDecode, mapFromHex, h, pairBytes]
  | c1 :: c2 :: rest => by
    have ih := hexDecode_eq_pair rest
    rcases h1 : fromHexChar c1 with _ | n1
    · simp [hexDecode, mapFromHex, h1]
    · rcases h2 : fromHexChar c2 with _ | n2
      · simp [hexDecode, mapFromHex, h1, h2]
      · rcases hm : mapFromHex rest with _ | ns
        · have hrest : hexDecode rest = none := by rw [ih, hm]; rfl
          simp [hexDecode, mapFromHex, h1, h2, hm, hrest]
        · have hrest : hexDecode rest = pairBytes ns := by rw [ih, hm]; rfl
          rcases hp : pairBytes ns with _ | tl <;>
            simp [hexDecode, mapFromHex, pairBytes, h1, h2, hm, hrest, hp]

/-- Replacing one character by another with the same hex value leaves
per-character decoding unchanged. -/
theorem mapFromHex_set :
    ∀ (l : List Char) (j : Nat) (c : Char) (hj : j < l.length),
      fromHexChar c = fromHexChar l[j] →
      mapFromHex (l.set j c) = mapFromHex l
  | [], j, c, hj, _ => by simp at hj
  | x :: xs, 0, c, hj, hc => by
    simp only [List.getElem_cons_zero] at hc
    simp [List.set, mapFromHex, hc]
  | x :: xs, j + 1, c, hj, hc => by
    simp only [List.getElem_cons_succ] at hc
    have ih := mapFromHex_set xs j c (by simpa using hj) hc
    simp [List.set, mapFromHex, ih]

/-- Replacing one character by another with the same hex value leaves
`hexDecode` unchanged. -/
theorem hexDecode_set (l : List Char) (j : Nat) (c : Char) (hj : j < l.length)
    (hc : fromHexChar c = fromHexChar l[j]) :
    hexDecode (l.set j c) = hexDecode l := by
  rw [hexDecode_eq_pair, hexDecode_eq_pair, mapFromHex_set l j c hj hc]

/-- Claim C5: for a 20-byte address, the encoder's output is the unique
validating string among the well-shaped strings whose tail decodes to that
address, and flipping the case of any single alphabetic character of the
output makes `IsChecksumAddress` return `false`. -/
theorem checksum_unique (a : List Nat) (h20 : a.length = 20) (hb : ∀ b ∈ a, b < 256) :
    ∃ s, ToChecksumAddress a = some s
      ∧ (∀ s', ['0', 'x'] <+: s' → s'.length = 42 → hexDecode (s'.drop 2) = some a →
          (IsChecksumAddress s' = some true ↔ s' = s))
      ∧ (∀ (i : Nat) (hi : i < s.length), isAlphaChar s[i] →
          IsChecksumAddress (s.set i (flipCase s[i])) = some false) := by
  have henc := ToChecksumAddress_eq_some a (by omega)
  have hblen := zip_body_length a h20
  have hdecBody : hexDecode (List.zipWith ruleChar (hexEncode a) (hashHexOf a)) = some a :=
    hexDecode_zipWith_ruleChar a (hashHexOf a) hb (by rw [hashHexOf_length]; omega)
  set body := List.zipWith ruleChar (hexEncode a) (hashHexOf a) with hbody
  refine ⟨'0' :: 'x' :: body, henc, ?_, ?_⟩
  · intro s' hpre hlen hdec
    rw [IsChecksumAddress_eq_decide s' a _ hpre hlen hdec henc]
    constructor
    · intro h
      exact of_decide_eq_true (Option.some_inj.mp h)
    · intro h
      rw [h]
      simp
  · intro i hi halpha
    rcases i with _ | i
    · have h0 : (('0' :: 'x' :: body) : List Char)[0] = '0' := rfl
      rw [h0] at halpha
      exact absurd halpha (by decide)
    rcases i with _ | j
    · -- position 1 holds the 'x' of the prefix; flipping it breaks the prefix check
      have h1 : ('0' :: 'x' :: body).set 1 (flipCase (('0' :: 'x' :: body) : List Char)[1])
          = '0' :: 'X' :: body := rfl
      rw [h1, IsChecksumAddress, if_neg]
      intro hcon
      rcases List.cons_prefix_cons.mp hcon.1 with ⟨-, hpre2⟩
      rcases List.cons_prefix_cons.mp hpre2 with ⟨hxX, -⟩
      exact absurd hxX (by decide)
    · -- position j + 2 sits inside the checksummed body
      have hj : j < body.length := by
        simp only [List.length_cons] at hi
        omega
      have hje : j < (hexEncode a).length := by rw [hexEncode_length, h20]; omega
      have hjh : j < (hashHexOf a).length := by rw [hashHexOf_length]; omega
      obtain ⟨n, hn, hcn⟩ := hexEncode_chars a hb ((hexEncode a).get ⟨j, hje⟩)
        (List.get_mem _ _ _)
      have hgetel : (('0' :: 'x' :: body) : List Char)[j + 2] = body[j] := by
        simp [List.getElem_cons_succ]
      have hbj : body[j] = ruleChar (Nat.digitChar n) (hashHexOf a)[j] := by
        rw [List.get_eq_getElem] at hcn
        simp only [hbody, List.getElem_zipWith]
        rw [hcn]
      rw [hgetel] at halpha ⊢
      rw [hbj] at halpha
      obtain ⟨hfdec, hfne⟩ := flip_ruleChar n hn ((hashHexOf a)[j])
      have hset : ('0' :: 'x' :: body).set (j + 2) (flipCase body[j])
          = '0' :: 'x' :: body.set j (flipCase body[j]) := rfl
      rw [hset]
      have hcEq : fromHexChar (flipCase body[j]) = fromHexChar body[j] := by
        rw [hbj]; exact hfdec
      have hdec2 : hexDecode (body.set j (flipCase body[j])) = some a := by
        rw [hexDecode_set body j _ hj hcEq]
        exact hdecBody
      have hlen2 : ('0' :: 'x' :: body.set j (flipCase body[j])).length = 42 := by
        simp [List.length_set]
        omega
      have hval := IsChecksumAddress_eq_decide
        ('0' :: 'x' :: body.set j (flipCase body[j])) a ('0' :: 'x' :: body)
        ⟨body.set j (flipCase body[j]), rfl⟩ hlen2 hdec2 henc
      rw [hval]
      have hne : ('0' :: 'x' :: body.set j (flipCase body[j])) ≠ '0' :: 'x' :: body := by
        intro heq
        have hbe : body.set j (flipCase body[j]) = body := by
          injection heq with e1 e2
          injection e2
        have hgs2 : body[j] = flipCase body[j] := by
          have hcast := List.getElem_of_eq hbe.symm hj
          nth_rewrite 1 [hcast]
          exact List.getElem_set_self _
        have hfne2 : flipCase body[j] ≠ body[j] := by
          rw [hbj]
          exact hfne halpha
        exact hfne2 hgs2.symm
      rw [decide_eq_false hne]

theorem checksum_unique_witness :
    (List.replicate 20 0 : List Nat).length = 20 ∧
      (∀ b ∈ (List.replicate 20 0 : List Nat), b < 256) ∧
      ∃ s, ToChecksumAddress (List.replicate 20 0) = some s
        ∧ (∀ s', ['0', 'x'] <+: s' → s'.length = 42 →
            hexDecode (s'.drop 2) = some (List.replicate 20 0) →
            (IsChecksumAddress s' = some true ↔ s' = s))
        ∧ (∀ (i : Nat) (hi : i < s.length), isAlphaChar s[i] →
            IsChecksumAddress (s.set i (flipCase s[i])) = some false) :=
  ⟨by decide, by decide, checksum_unique (List.replicate 20 0) (by decide) (by decide)⟩

end Web3
